import Mathlib

/-!
Verification development for the STween tweening library (`STween.h`).

The library is a header-only C++ template engine: a registry (`class STween`)
owns a vector of `TweenData<T>` records, configured through a fluent builder
(`From`/`To`/`Time`/`OnFinish`/`OnStep`/`Chain`/`Reversed`/`Easing`) and
advanced by `Update(deltaTime)`, which computes eased values, writes them
through caller-owned pointers, fires callbacks, detects completion, compacts
the vector by swap-with-last removal, and re-inserts chained records.

Embedding conventions:
* the template parameter `T` is instantiated at the rationals (`Val := ℚ`),
  an idealised model of the arithmetic types the header is used with;
* `T*` pointers are addresses (`Nat`) into an explicit heap `Nat → Val`;
  the null pointer is `Option.none`;
* `std::function` callbacks are modelled by presence flags plus an event
  log: each `Update` records the pointer writes it performs, the values it
  passes to the step callback, and the finish-callback invocations;
* the C++ `enum EasingFunction` field is modelled by its underlying integer
  so that out-of-range selections (possible in C++ via casts) are
  representable; the `switch` in `Update` carries the source's `default`
  branch;
* the float literal `1.70158f` (and `1.525f`) of the Back easings are taken
  at their decimal value in `ℚ`.
-/

/-- Values tweened by the library; the C++ header is a template over `T`,
modelled here at the rationals. -/
abbrev Val : Type := ℚ

/-- Caller-owned storage reachable through `T*` pointers: a map from
addresses to values. -/
def Heap : Type := Nat → Val

/-- Writing through a pointer: `*p = v`. -/
def heapWrite (h : Heap) (a : Nat) (v : Val) : Heap :=
  fun x => if x = a then v else h x

/-- Observable effects of one `Update` pass: pointer writes, values handed
to the per-step callback, and finish-callback invocations. -/
inductive Event : Type where
  | write (addr : Nat) (val : Val)
  | step (val : Val)
  | finish
deriving DecidableEq

-- Numeric values of the C++ `enum EasingFunction` enumerators.
namespace EasingFunction

def Linear : Int := 0

def QuadranticIn : Int := 1

def QuadranticOut : Int := 2

def QuadranticInOut : Int := 3

def CubicIn : Int := 4

def CubicOut : Int := 5

def CubicInOut : Int := 6

def QuintIn : Int := 7

def QuintOut : Int := 8

def QuintInOut : Int := 9

def BackIn : Int := 10

def BackOut : Int := 11

def BackInOut : Int := 12

end EasingFunction

/-- Source: `STween<T>::Linear`. -/
def STween.Linear (position start stop : Val) : Val :=
  (stop - start) * position + start

/-- Source: `STween<T>::QuadIn`. -/
def STween.QuadIn (position start stop : Val) : Val :=
  (stop - start) * position * position + start

/-- Source: `STween<T>::QuadOut`. -/
def STween.QuadOut (position start stop : Val) : Val :=
  ((stop - start) * (-1)) * position * (position - 2) + start

/-- Source: `STween<T>::QuadInOut`. -/
def STween.QuadInOut (position start stop : Val) : Val :=
  let p := position * 2
  if p < 1 then ((stop - start) / 2) * p * p + start
  else
    let p1 := p - 1
    (((stop - start) * 1) / 2) * (p1 * (p1 - 2) - 1) + start

/-- Source: `STween<T>::CubicIn`. -/
def STween.CubicIn (position start stop : Val) : Val :=
  (stop - start) * position * position * position + start

/-- Source: `STween<T>::CubicOut`. -/
def STween.CubicOut (position start stop : Val) : Val :=
  let p := position - 1
  (stop - start) * (p * p * p + 1) + start

/-- Source: `STween<T>::CubicInOut`. -/
def STween.CubicInOut (position start stop : Val) : Val :=
  let p := position * 2
  if p < 1 then ((stop - start) / 2) * p * p * p + start
  else
    let p2 := p - 2
    ((stop - start) / 2) * (p2 * p2 * p2 + 2) + start

/-- Source: `STween<T>::QuintIn`. -/
def STween.QuintIn (position start stop : Val) : Val :=
  (stop - start) * position * position * position * position * position + start

/-- Source: `STween<T>::QuintOut`. -/
def STween.QuintOut (position start stop : Val) : Val :=
  let p := position - 1
  (stop - start) * (p * p * p * p * p + 1) + start

/-- Source: `STween<T>::QuintInOut`. -/
def STween.QuintInOut (position start stop : Val) : Val :=
  let p := position * 2
  if p < 1 then ((stop - start) / 2) * (p * p * p * p * p) + start
  else
    let p2 := p - 2
    ((stop - start) / 2) * (p2 * p2 * p2 * p2 * p2 + 2) + start

/-- Source: `STween<T>::BackIn`; `1.70158f` taken at its decimal value. -/
def STween.BackIn (position start stop : Val) : Val :=
  let s : ℚ := 170158 / 100000
  let postFix := position
  (stop - start) * postFix * position * ((s + 1) * position - s) + start

/-- Source: `STween<T>::BackOut`. -/
def STween.BackOut (position start stop : Val) : Val :=
  let s : ℚ := 170158 / 100000
  let p := position - 1
  (stop - start) * (p * p * ((s + 1) * p + s) + 1) + start

/-- Source: `STween<T>::BackInOut`. -/
def STween.BackInOut (position start stop : Val) : Val :=
  let s : ℚ := (170158 / 100000) * (1525 / 1000)
  let b := start
  let c := stop - start
  let d : ℚ := 1
  let t := position / (d / 2)
  if t < 1 then c / 2 * (t * t * ((s + 1) * t - s)) + b
  else
    let t2 := t - 2
    c / 2 * (t2 * t2 * ((s + 1) * t2 + s) + 2) + b

/-- The `switch (tween.easing)` dispatch inside `STween<T>::Update`
(lines 267-323), including its `default:` fall-back to `Linear`; the easing
selector is the underlying integer of the C++ enum. -/
def evalEasing (easing : Int) (timePos start stop : Val) : Val :=
  if easing = 0 then STween.Linear timePos start stop
  else if easing = 1 then STween.QuadIn timePos start stop
  else if easing = 2 then STween.QuadOut timePos start stop
  else if easing = 3 then STween.QuadInOut timePos start stop
  else if easing = 4 then STween.CubicIn timePos start stop
  else if easing = 5 then STween.CubicOut timePos start stop
  else if easing = 6 then STween.CubicInOut timePos start stop
  else if easing = 7 then STween.QuintIn timePos start stop
  else if easing = 8 then STween.QuintOut timePos start stop
  else if easing = 9 then STween.QuintInOut timePos start stop
  else if easing = 10 then STween.BackIn timePos start stop
  else if easing = 11 then STween.BackOut timePos start stop
  else if easing = 12 then STween.BackInOut timePos start stop
  else STween.Linear timePos start stop

/-- Scalar fields of `TweenData<T>` (`STween.h` lines 63-93); the callbacks
are modelled by presence flags and the recursive `endTween` vector is split
into `TweenData` below. -/
structure TweenCore : Type where
  tweenID : Int
  fromReady : Bool
  byPointer : Bool
  reversed : Bool
  initialValue : Option Nat
  initialCpy : Val
  finalValue : Val
  duration : ℚ
  easing : Int
  timeCounter : ℚ
  hasFinishCallback : Bool
  hasStepCallback : Bool
deriving DecidableEq, Repr

/-- `TweenData<T>`: the scalar core plus the `endTween` chain vector
(recursive, hence an inductive rather than a structure). -/
inductive TweenData : Type where
  | mk (core : TweenCore) (endTween : List TweenData)

/-- Projection to the scalar fields. -/
def TweenData.core : TweenData → TweenCore
  | .mk c _ => c

/-- Projection to the `endTween` chain vector. -/
def TweenData.endTween : TweenData → List TweenData
  | .mk _ ts => ts

/-- Source: `TweenData<T>::operator==` (lines 74-78): compares `tweenID`,
the `initialValue` pointer, `finalValue`, `timeCounter`, `reversed` and
`easing` (and nothing else). -/
def tweenEq (a b : TweenData) : Bool :=
  decide (a.core.tweenID = b.core.tweenID) &&
  decide (a.core.initialValue = b.core.initialValue) &&
  decide (a.core.finalValue = b.core.finalValue) &&
  decide (a.core.timeCounter = b.core.timeCounter) &&
  decide (a.core.reversed = b.core.reversed) &&
  decide (a.core.easing = b.core.easing)

/-- The registry state: `class STween` private members
(`m_lastTweenIndex`, `m_tweenVec`). -/
structure STween : Type where
  m_lastTweenIndex : Int
  m_tweenVec : List TweenData

/-- The default-constructed registry (`m_lastTweenIndex = -1`, empty
vector). -/
def STween.init : STween :=
  { m_lastTweenIndex := -1, m_tweenVec := [] }

/-- Mutation of the record at a given position, used to model
`m_tweenVec[m_lastTweenIndex].field = ...` in the builder methods. -/
def modifyNth {α : Type} (f : α → α) : Nat → List α → List α
  | _, [] => []
  | 0, a :: as => f a :: as
  | n + 1, a :: as => a :: modifyNth f n as

/-- Shared shape of the builder methods: mutate the last-appended record
(the one at index `m_lastTweenIndex`). -/
def STween.modifyLast (st : STween) (f : TweenData → TweenData) : STween :=
  { st with m_tweenVec := modifyNth f st.m_lastTweenIndex.toNat st.m_tweenVec }

/-- Source: `STween<T>::From(T* initVal)` (lines 191-207): appends a new
by-pointer record snapshotting `*initVal` into `initialCpy`.  The C++
constructor leaves `finalValue` default-initialised until `To` is called;
the model uses `0` for that not-yet-configured field. -/
def STween.FromPtr (st : STween) (addr : Nat) (h : Heap) : STween :=
  let td : TweenData := .mk
    { tweenID := st.m_lastTweenIndex
      fromReady := true
      byPointer := true
      reversed := false
      initialValue := some addr
      initialCpy := h addr
      finalValue := 0
      duration := 0
      easing := 0
      timeCounter := 0
      hasFinishCallback := false
      hasStepCallback := false } []
  { m_lastTweenIndex := st.m_lastTweenIndex + 1, m_tweenVec := st.m_tweenVec ++ [td] }

/-- Source: `STween<T>::From(T initVal)` (lines 209-226): appends a new
by-value record (`byPointer = false`, null `initialValue`). -/
def STween.FromVal (st : STween) (v : Val) : STween :=
  let td : TweenData := .mk
    { tweenID := st.m_lastTweenIndex
      fromReady := true
      byPointer := false
      reversed := false
      initialValue := none
      initialCpy := v
      finalValue := 0
      duration := 0
      easing := 0
      timeCounter := 0
      hasFinishCallback := false
      hasStepCallback := false } []
  { m_lastTweenIndex := st.m_lastTweenIndex + 1, m_tweenVec := st.m_tweenVec ++ [td] }

/-- Source: `STween<T>::To` (lines 228-233). -/
def STween.To (st : STween) (finalVal : Val) : STween :=
  st.modifyLast fun td => .mk { td.core with finalValue := finalVal } td.endTween

/-- Source: `STween<T>::Time` (lines 235-240). -/
def STween.Time (st : STween) (sec : ℚ) : STween :=
  st.modifyLast fun td => .mk { td.core with duration := sec } td.endTween

/-- Source: `STween<T>::OnFinish` (lines 383-388); the callback itself is
modelled by its presence flag. -/
def STween.OnFinish (st : STween) : STween :=
  st.modifyLast fun td => .mk { td.core with hasFinishCallback := true } td.endTween

/-- Source: `STween<T>::OnStep` (lines 390-396). -/
def STween.OnStep (st : STween) : STween :=
  st.modifyLast fun td => .mk { td.core with hasStepCallback := true } td.endTween

/-- Source: `STween<T>::Chain` (lines 398-403): stores
`chain->GetTweens()` — a copy of the other registry's current vector —
into the last record's `endTween`. -/
def STween.Chain (st other : STween) : STween :=
  st.modifyLast fun td => .mk td.core other.m_tweenVec

/-- Source: `STween<T>::Reversed` (lines 405-410). -/
def STween.Reversed (st : STween) (isReversed : Bool) : STween :=
  st.modifyLast fun td => .mk { td.core with reversed := isReversed } td.endTween

/-- Source: `STween<T>::Easing` (lines 412-417); the argument is the
underlying integer of the enum. -/
def STween.Easing (st : STween) (easingType : Int) : STween :=
  st.modifyLast fun td => .mk { td.core with easing := easingType } td.endTween

/-- Source: `STween<T>::GetTweens` (lines 419-422): returns the vector by
value (a copy). -/
def STween.GetTweens (st : STween) : List TweenData :=
  st.m_tweenVec

/-- Source: `STween<T>::ReleaseTweens` (lines 185-189). -/
def STween.ReleaseTweens (_st : STween) : STween :=
  { m_lastTweenIndex := -1, m_tweenVec := [] }

/-- Overwriting a record's `tweenID` (as `AddTween` does on insertion). -/
def TweenData.setID (td : TweenData) (i : Int) : TweenData :=
  .mk { td.core with tweenID := i } td.endTween

/-- Source: `STween<T>::AddTween` (lines 424-429): stamps the current
`m_lastTweenIndex` onto the record, appends it and increments the index. -/
def STween.AddTween (st : STween) (td : TweenData) : STween :=
  { m_lastTweenIndex := st.m_lastTweenIndex + 1
    m_tweenVec := st.m_tweenVec ++ [td.setID st.m_lastTweenIndex] }

/-- Source: `STween<T>::AddTweens` (lines 431-437). -/
def STween.AddTweens (st : STween) (tweens : List TweenData) : STween :=
  tweens.foldl STween.AddTween st

/-- Per-record mutation applied by one `Update` pass: `tweenID = counter`
is set on every evaluated record (line 334), `fromReady` is cleared when
the completion test `timeCounter >= duration` fires (line 342), and
`timeCounter += deltaTime` happens last (line 358). -/
def stepCore (deltaTime : ℚ) (counter : Nat) (c : TweenCore) : TweenCore :=
  { c with
    tweenID := (counter : Int)
    fromReady := if c.duration ≤ c.timeCounter then false else c.fromReady
    timeCounter := c.timeCounter + deltaTime }

/-- The eased value computed for a record at the current tick (lines
252-323): normalized position `timeCounter / duration`, start/end swapped
when `reversed`, then the easing dispatch. -/
def tweenValue (c : TweenCore) : Val :=
  evalEasing c.easing (c.timeCounter / c.duration)
    (if c.reversed then c.finalValue else c.initialCpy)
    (if c.reversed then c.initialCpy else c.finalValue)

/-- The boundary value a completing record is snapped to (line 339):
`endValue` normally, `startValue` when reversed. -/
def snapValue (c : TweenCore) : Val :=
  if c.reversed then c.initialCpy else c.finalValue

/-- Effect of `*tween.initialValue = v` together with its event; a null
pointer (impossible for records built through `From`) is a no-op here. -/
def writePtr (h : Heap) (p : Option Nat) (v : Val) : Heap × List Event :=
  match p with
  | some a => (heapWrite h a v, [Event.write a v])
  | none => (h, [])

/-- Result of evaluating one `fromReady` record inside the `Update` loop. -/
structure OneResult : Type where
  tween : TweenData
  heap : Heap
  events : List Event
  adds : List TweenData
  del : Bool

/-- The body of the `if (tween.fromReady)` branch of `STween<T>::Update`
(lines 250-359): compute the eased value, write it through the pointer if
`byPointer`, pass it to the step callback if present, stamp the id, then
on completion (`timeCounter >= duration`, tested before the increment)
snap the pointer target to the boundary value, fire the finish callback,
queue the `endTween` records, and flag the record for deletion; finally
add `deltaTime` to `timeCounter`. -/
def processTween (deltaTime : ℚ) (counter : Nat) (td : TweenData) (h : Heap) :
    OneResult :=
  let c := td.core
  let value := tweenValue c
  let hv := if c.byPointer then writePtr h c.initialValue value else (h, [])
  let ev2 := if c.hasStepCallback then [Event.step value] else []
  if c.duration ≤ c.timeCounter then
    let snap := snapValue c
    let hs := if c.byPointer then writePtr hv.1 c.initialValue snap else (hv.1, [])
    let ev4 := if c.hasFinishCallback then [Event.finish] else []
    { tween := .mk (stepCore deltaTime counter c) td.endTween
      heap := hs.1
      events := hv.2 ++ ev2 ++ hs.2 ++ ev4
      adds := td.endTween
      del := true }
  else
    { tween := .mk (stepCore deltaTime counter c) td.endTween
      heap := hv.1
      events := hv.2 ++ ev2
      adds := []
      del := false }

/-- Accumulated result of the main `for (auto &tween : m_tweenVec)` loop. -/
structure PassResult : Type where
  vec : List TweenData
  heap : Heap
  events : List Event
  adds : List TweenData
  dels : List Nat

/-- The main loop of `STween<T>::Update` (lines 247-367): evaluates each
`fromReady` record in order (threading the heap), and pushes the position
of every completed or left-over (`fromReady == false`) record onto
`tweensToDelete`. -/
def updatePass (deltaTime : ℚ) : List TweenData → Nat → Heap → PassResult
  | [], _, h => { vec := [], heap := h, events := [], adds := [], dels := [] }
  | td :: rest, counter, h =>
    if td.core.fromReady then
      let one := processTween deltaTime counter td h
      let r := updatePass deltaTime rest (counter + 1) one.heap
      { vec := one.tween :: r.vec
        heap := r.heap
        events := one.events ++ r.events
        adds := one.adds ++ r.adds
        dels := (if one.del then [counter] else []) ++ r.dels }
    else
      let r := updatePass deltaTime rest (counter + 1) h
      { vec := td :: r.vec
        heap := r.heap
        events := r.events
        adds := r.adds
        dels := counter :: r.dels }

/-- One swap-with-last removal (lines 371-373): `vec[i] = move(vec.back());
vec.pop_back()`. -/
def eraseSwap (v : List TweenData) (i : Nat) : List TweenData :=
  match v.getLast? with
  | none => v
  | some last => (v.set i last).dropLast

/-- Source: `STween<T>::Update` (lines 242-381): run the evaluation pass,
then erase the collected indices in reverse order by swap-with-last
(decrementing `m_lastTweenIndex` once per erase), then re-insert the
queued chained records through `AddTween`.  Returns the new registry, the
new heap, and the event log of the pass. -/
def STween.Update (st : STween) (deltaTime : ℚ) (h : Heap) :
    STween × Heap × List Event :=
  let r := updatePass deltaTime st.m_tweenVec 0 h
  let vec2 := r.dels.reverse.foldl eraseSwap r.vec
  let st2 := r.adds.foldl STween.AddTween
    { m_lastTweenIndex := st.m_lastTweenIndex - r.dels.length, m_tweenVec := vec2 }
  (st2, r.heap, r.events)

/-- Repeated `Update` calls: threads the registry and heap, concatenating
the event logs. -/
def runUpdates : List ℚ → STween → Heap → STween × Heap × List Event
  | [], st, h => (st, h, [])
  | dt :: rest, st, h =>
    let u := STween.Update st dt h
    let r := runUpdates rest u.1 u.2.1
    (r.1, r.2.1, u.2.2 ++ r.2.2)

/-! ## Concrete fixtures used by the counterexamples and witnesses -/

/-- The all-zero heap; the storage slot `x` of the concrete scenarios lives
at address `0`. -/
def heap0 : Heap := fun _ => 0

/-- The C2 scenario registry:
`From(&x)` with `x = 0.0`, `To(10.0)`, `Time(1.0)`, `Easing(Linear)`,
plus an `OnFinish` callback. -/
def stC2 : STween :=
  ((((STween.init.FromPtr 0 heap0).To 10).Time 1).Easing 0).OnFinish

/-- The C7 scenario registry: by-value `From(0.0)`, `To(1.0)`, `Time(1.0)`,
`OnStep(cb)`. -/
def stC7 : STween :=
  (((STween.init.FromVal 0).To 1).Time 1).OnStep

/-- Registry for the C3 counterexample: `From(&x)`, `To(10.0)`, `Time(1.0)`,
`Easing(Linear)`, `OnStep(cb)`. -/
def stC3 : STween :=
  ((((STween.init.FromPtr 0 heap0).To 10).Time 1).Easing 0).OnStep

/-- Fixture for the C8 counterexample: a still-running record occupying
index 0. -/
def tdLong : TweenData := .mk
  { tweenID := 0, fromReady := true, byPointer := false, reversed := false,
    initialValue := none, initialCpy := 0, finalValue := 1, duration := 10,
    easing := 0, timeCounter := 0, hasFinishCallback := false, hasStepCallback := false } []

/-- Fixture for the C8 counterexample: the record captured in the chain
list of `tdDone`. -/
def tdChained : TweenData := .mk
  { tweenID := 5, fromReady := true, byPointer := false, reversed := false,
    initialValue := none, initialCpy := 3, finalValue := 4, duration := 1,
    easing := 0, timeCounter := 0, hasFinishCallback := false, hasStepCallback := false } []

/-- Fixture for the C8 counterexample: a record at index 1 whose
`timeCounter` has already reached its duration, carrying `tdChained`. -/
def tdDone : TweenData := .mk
  { tweenID := 1, fromReady := true, byPointer := false, reversed := false,
    initialValue := none, initialCpy := 0, finalValue := 1, duration := 1,
    easing := 0, timeCounter := 1, hasFinishCallback := false, hasStepCallback := false } [tdChained]

/-- Fixture for the C8 counterexample: registry holding `tdLong` and
`tdDone` (with `m_lastTweenIndex` satisfying the class invariant). -/
def stC8 : STween := { m_lastTweenIndex := 1, m_tweenVec := [tdLong, tdDone] }

/-- Identifier re-assignment performed by a sequence of `AddTween` calls
starting at index `li`. -/
def assignIDs (li : Int) : List TweenData → List TweenData
  | [] => []
  | t :: ts => t.setID li :: assignIDs (li + 1) ts

/-- The class invariant of `STween`: `m_lastTweenIndex` is the index of the
last element of `m_tweenVec` (`-1` when empty). -/
def lastIndexInv (st : STween) : Prop :=
  st.m_lastTweenIndex = (st.m_tweenVec.length : Int) - 1

/-- The non-reversed counterpart of a record: start and end values swapped,
`reversed` cleared, everything else identical. -/
def revCounterpart (td : TweenData) : TweenData :=
  .mk { td.core with
        initialCpy := td.core.finalValue
        finalValue := td.core.initialCpy
        reversed := false } td.endTween

/-- The public mutating operations of the registry, used to state that a
chain captured from a registry is unaffected by whatever is done to that
registry afterwards. -/
inductive RegMutation : Type where
  | fromPtr (addr : Nat)
  | fromVal (v : Val)
  | toVal (v : Val)
  | timeVal (sec : ℚ)
  | onFinishCb
  | onStepCb
  | chainOther (other : STween)
  | reversedFlag (b : Bool)
  | easingSel (e : Int)
  | update (dt : ℚ)
  | release
  | addOne (td : TweenData)
  | addMany (l : List TweenData)

/-- Interpretation of a registry mutation on a registry/heap pair. -/
def applyMutation : RegMutation → STween → Heap → STween × Heap
  | .fromPtr a, st, h => (st.FromPtr a h, h)
  | .fromVal v, st, h => (st.FromVal v, h)
  | .toVal v, st, h => (st.To v, h)
  | .timeVal s, st, h => (st.Time s, h)
  | .onFinishCb, st, h => (st.OnFinish, h)
  | .onStepCb, st, h => (st.OnStep, h)
  | .chainOther o, st, h => (st.Chain o, h)
  | .reversedFlag b, st, h => (st.Reversed b, h)
  | .easingSel e, st, h => (st.Easing e, h)
  | .update dt, st, h => ((st.Update dt h).1, (st.Update dt h).2.1)
  | .release, st, h => (st.ReleaseTweens, h)
  | .addOne td, st, h => (st.AddTween td, h)
  | .addMany l, st, h => (st.AddTweens l, h)

/-- Running a sequence of mutations against a registry. -/
def runMutations (ms : List RegMutation) (st : STween) (h : Heap) : STween × Heap :=
  ms.foldl (fun p m => applyMutation m p.1 p.2) (st, h)

/-- Fresh by-pointer record used by the C1 witness. -/
def tdC1 : TweenData := .mk
  { tweenID := -1, fromReady := true, byPointer := true, reversed := false,
    initialValue := some 0, initialCpy := 0, finalValue := 10, duration := 1,
    easing := 0, timeCounter := 0, hasFinishCallback := false, hasStepCallback := false } []

/-- By-pointer record with a step callback whose elapsed time has overshot
its duration, used by the C3 witness. -/
def tdOver : TweenData := .mk
  { tweenID := 0, fromReady := true, byPointer := true, reversed := false,
    initialValue := some 0, initialCpy := 0, finalValue := 10, duration := 1,
    easing := 0, timeCounter := 2, hasFinishCallback := false, hasStepCallback := true } []

/-- Reversed record used by the C5 witness. -/
def tdRev : TweenData := .mk
  { tweenID := 0, fromReady := true, byPointer := true, reversed := true,
    initialValue := some 0, initialCpy := 0, finalValue := 10, duration := 1,
    easing := 0, timeCounter := 0, hasFinishCallback := false, hasStepCallback := true } []

/-! ## Claim theorems: concrete counterexamples and concrete scenarios -/

/-- C1, counterexample: with `From(&x) x = 0`, `To 10`, `Time 1`, Linear,
a single `Update(1.0)` makes the cumulative elapsed time reach the
duration exactly, yet the value written on that call is `0`, not the end
value `10` (the record is even still active), refuting the claim that the
final written value equals the end value on the call where the cumulative
elapsed time first reaches the duration. -/
theorem c1_counterexample :
    (runUpdates [1] stC2 heap0).2.1 0 = 0 ∧
    ((runUpdates [1] stC2 heap0).1.m_tweenVec.map fun td => td.core.fromReady) = [true] ∧
    (0 : ℚ) ≠ 10 := by
  refine ⟨?_, ?_, by norm_num⟩ <;>
  norm_num [runUpdates, STween.Update, updatePass, processTween, tweenValue,
    evalEasing, STween.Linear, stepCore, snapValue, writePtr, heapWrite, eraseSwap, modifyNth,
    STween.FromPtr, STween.To, STween.Time, STween.Easing, STween.OnFinish,
    STween.init, STween.modifyLast, STween.AddTween, heap0,
    TweenData.core, TweenData.endTween, TweenData.setID, stC2]

/-- C2, counterexample: in the concrete program of the claim
(`From(&x)` with `x = 0.0`, `To(10.0)`, `Time(1.0)`, `Easing(Linear)`),
after the first `Update(0.5)` the storage `x` holds `0.0`, not `5.0`
(the first call evaluates at pre-increment elapsed time `0`). -/
theorem c2_counterexample :
    (runUpdates [1/2] stC2 heap0).2.1 0 = 0 ∧ (0 : ℚ) ≠ 5 := by
  refine ⟨?_, by norm_num⟩
  norm_num [runUpdates, STween.Update, updatePass, processTween, tweenValue,
    evalEasing, STween.Linear, stepCore, snapValue, writePtr, heapWrite, eraseSwap, modifyNth,
    STween.FromPtr, STween.To, STween.Time, STween.Easing, STween.OnFinish,
    STween.init, STween.modifyLast, STween.AddTween, heap0,
    TweenData.core, TweenData.endTween, TweenData.setID, stC2]

/-- C2, amended: because `Update` evaluates at the pre-increment elapsed
time, the concrete scenario runs one tick late: after the first
`Update(0.5)` the storage `x` is `0.0` and the record is active; after the
second, `x = 5.0` and the record is still active; a third `Update(0.5)`
writes `x = 10.0` exactly, removes the record, and the finish callback
fires exactly once over the whole run (the full event log being the four
pointer writes followed by one finish invocation). -/
theorem c2_amended :
    ((runUpdates [1/2] stC2 heap0).2.1 0 = 0 ∧
      ((runUpdates [1/2] stC2 heap0).1.m_tweenVec.map fun td => td.core.fromReady) = [true]) ∧
    ((runUpdates [1/2, 1/2] stC2 heap0).2.1 0 = 5 ∧
      ((runUpdates [1/2, 1/2] stC2 heap0).1.m_tweenVec.map fun td => td.core.fromReady) = [true]) ∧
    ((runUpdates [1/2, 1/2, 1/2] stC2 heap0).2.1 0 = 10 ∧
      (runUpdates [1/2, 1/2, 1/2] stC2 heap0).1.m_tweenVec = [] ∧
      (runUpdates [1/2, 1/2, 1/2] stC2 heap0).2.2 =
        [Event.write 0 0, Event.write 0 5, Event.write 0 10, Event.write 0 10, Event.finish]) := by
  refine ⟨⟨?_, ?_⟩, ⟨?_, ?_⟩, ?_, ?_, ?_⟩ <;>
  norm_num [runUpdates, STween.Update, updatePass, processTween, tweenValue,
    evalEasing, STween.Linear, stepCore, snapValue, writePtr, heapWrite, eraseSwap, modifyNth,
    STween.FromPtr, STween.To, STween.Time, STween.Easing, STween.OnFinish,
    STween.init, STween.modifyLast, STween.AddTween, heap0,
    TweenData.core, TweenData.endTween, TweenData.setID, stC2]

/-- C3, counterexample: a by-pointer record with an `OnStep` callback
(`From(&x)`, `To 10`, `Time 1`, Linear, `OnStep`), advanced by
`Update(2.0)` and then `Update(1.0)`: on the completing second call the
snapped boundary value `10` is written through the pointer
(`Event.write 0 10`) but is never passed to the step callback — the
callback only receives the extrapolated value `20`, so `Event.step 10`
never occurs, refuting the claim that the snapped value is also delivered
to `onStep`. -/
theorem c3_counterexample :
    (runUpdates [2, 1] stC3 heap0).2.2 =
      [Event.write 0 0, Event.step 0, Event.write 0 20, Event.step 20, Event.write 0 10] ∧
    Event.step 10 ∉ (runUpdates [2, 1] stC3 heap0).2.2 := by
  have h : (runUpdates [2, 1] stC3 heap0).2.2 =
      [Event.write 0 0, Event.step 0, Event.write 0 20, Event.step 20, Event.write 0 10] := by
    norm_num [runUpdates, STween.Update, updatePass, processTween, tweenValue,
      evalEasing, STween.Linear, stepCore, snapValue, writePtr, heapWrite, eraseSwap, modifyNth,
      STween.FromPtr, STween.To, STween.Time, STween.Easing, STween.OnStep,
      STween.init, STween.modifyLast, STween.AddTween, heap0,
      TweenData.core, TweenData.endTween, TweenData.setID, stC3]
  refine ⟨h, ?_⟩
  rw [h]
  norm_num
  refine ⟨by decide, ?_, ?_⟩ <;> decide

/-- C7, counterexample: for `From(0.0)` by value, `To(1.0)`, `Time(1.0)`,
`OnStep(cb)`, the first `Update(1.0)` invokes the callback with `0.0`
(the position is the pre-increment elapsed time `0`), not with `1.0` as
the claim states. -/
theorem c7_counterexample :
    (runUpdates [1] stC7 heap0).2.2 = [Event.step 0] ∧
    Event.step 1 ∉ (runUpdates [1] stC7 heap0).2.2 := by
  have h : (runUpdates [1] stC7 heap0).2.2 = [Event.step 0] := by
    norm_num [runUpdates, STween.Update, updatePass, processTween, tweenValue,
      evalEasing, STween.Linear, stepCore, snapValue, writePtr, heapWrite, eraseSwap, modifyNth,
      STween.FromVal, STween.To, STween.Time, STween.OnStep,
      STween.init, STween.modifyLast, STween.AddTween, heap0,
      TweenData.core, TweenData.endTween, TweenData.setID, stC7]
  refine ⟨h, ?_⟩
  rw [h]
  norm_num

/-- C7, amended: in the by-value scenario the first `Update(1.0)` invokes
the callback with `0.0` and the completing second `Update(1.0)` invokes it
with `1.0`; no pointer write ever occurs (the event log consists of the
two step invocations only and the heap is untouched), so the by-pointer
write branch is indeed unreachable for a by-value record. -/
theorem c7_amended :
    (runUpdates [1, 1] stC7 heap0).2.2 = [Event.step 0, Event.step 1] ∧
    (runUpdates [1, 1] stC7 heap0).2.1 = heap0 := by
  constructor <;>
  norm_num [runUpdates, STween.Update, updatePass, processTween, tweenValue,
    evalEasing, STween.Linear, stepCore, snapValue, writePtr, heapWrite, eraseSwap, modifyNth,
    STween.FromVal, STween.To, STween.Time, STween.OnStep,
    STween.init, STween.modifyLast, STween.AddTween, heap0,
    TweenData.core, TweenData.endTween, TweenData.setID, stC7]

/-- C8, counterexample: registry `stC8` holds a still-running record at
index 0 and a completing record at index 1 that chains `tdChained`.
During `Update` the surviving record gets `tweenID = 0` (its loop
counter); after compaction `m_lastTweenIndex` is back to `0`, so the
re-inserted chained record is also stamped `tweenID = 0` — the freshly
assigned identifier collides with the identifier of a record already in
the registry, refuting the distinctness part of the claim. -/
theorem c8_counterexample :
    ((stC8.Update 0 heap0).1.m_tweenVec.map fun td => td.core.tweenID) = [0, 0] := by
  norm_num [STween.Update, updatePass, processTween, tweenValue,
    evalEasing, STween.Linear, stepCore, snapValue, writePtr, heapWrite, eraseSwap, modifyNth,
    STween.AddTween, heap0, TweenData.core, TweenData.endTween, TweenData.setID,
    stC8, tdLong, tdDone, tdChained]

/-- C9: the easing dispatch of `Update` is a closed set of thirteen
functions — any selector outside the enumerated range `0..12` falls
through the `default:` branch to the `Linear` interpolation formula. -/
theorem c9_easing_fallback (e : Int) (p s t : Val) (h : e < 0 ∨ 12 < e) :
    evalEasing e p s t = STween.Linear p s t := by
  have h0 : e ≠ 0 := by omega
  have h1 : e ≠ 1 := by omega
  have h2 : e ≠ 2 := by omega
  have h3 : e ≠ 3 := by omega
  have h4 : e ≠ 4 := by omega
  have h5 : e ≠ 5 := by omega
  have h6 : e ≠ 6 := by omega
  have h7 : e ≠ 7 := by omega
  have h8 : e ≠ 8 := by omega
  have h9 : e ≠ 9 := by omega
  have h10 : e ≠ 10 := by omega
  have h11 : e ≠ 11 := by omega
  have h12 : e ≠ 12 := by omega
  simp [evalEasing, h0, h1, h2, h3, h4, h5, h6, h7, h8, h9, h10, h11, h12]

/-- C9, witness: the out-of-range selector `13` is mapped to the Linear
formula. -/
theorem c9_easing_fallback_witness :
    ((13 : Int) < 0 ∨ 12 < (13 : Int)) ∧
    evalEasing 13 (1/2) 0 10 = STween.Linear (1/2) 0 10 :=
  ⟨Or.inr (by norm_num), c9_easing_fallback 13 (1/2) 0 10 (Or.inr (by norm_num))⟩

/-! ## Supporting lemmas about the update pass, compaction and insertion -/

/-- The record mutation performed by one evaluation of a `fromReady` tween
is `stepCore`, in both the completing and the surviving branch. -/
theorem processTween_tween (dt : ℚ) (c : Nat) (td : TweenData) (h : Heap) :
    (processTween dt c td h).tween = TweenData.mk (stepCore dt c td.core) td.endTween := by
  simp only [processTween]
  split <;> rfl

theorem processTween_del_iff (dt : ℚ) (c : Nat) (td : TweenData) (h : Heap) :
    (processTween dt c td h).del = true ↔ td.core.duration ≤ td.core.timeCounter := by
  simp only [processTween]
  split <;> simp_all

theorem processTween_adds (dt : ℚ) (c : Nat) (td : TweenData) (h : Heap) :
    (processTween dt c td h).adds =
      if td.core.duration ≤ td.core.timeCounter then td.endTween else [] := by
  simp only [processTween]
  split <;> simp_all

theorem update_single_notReady (td : TweenData) (li : Int) (h : Heap) (dt : ℚ)
    (hr : td.core.fromReady = false) :
    STween.Update ⟨li, [td]⟩ dt h = (⟨li - 1, []⟩, h, []) := by
  simp [STween.Update, updatePass, hr, eraseSwap]

theorem update_single_active (td : TweenData) (li : Int) (h : Heap) (dt : ℚ)
    (hr : td.core.fromReady = true) (hc : ¬ td.core.duration ≤ td.core.timeCounter) :
    STween.Update ⟨li, [td]⟩ dt h =
      (⟨li, [TweenData.mk (stepCore dt 0 td.core) td.endTween]⟩,
        (processTween dt 0 td h).heap, (processTween dt 0 td h).events) := by
  have hdel : (processTween dt 0 td h).del = false := by
    rw [Bool.eq_false_iff]
    intro hx
    exact hc ((processTween_del_iff dt 0 td h).mp hx)
  have hadds : (processTween dt 0 td h).adds = [] := by
    rw [processTween_adds, if_neg hc]
  simp [STween.Update, updatePass, hr, hdel, hadds, processTween_tween]

theorem update_single_complete (td : TweenData) (li : Int) (h : Heap) (dt : ℚ)
    (hr : td.core.fromReady = true) (hc : td.core.duration ≤ td.core.timeCounter) :
    STween.Update ⟨li, [td]⟩ dt h =
      (td.endTween.foldl STween.AddTween ⟨li - 1, []⟩,
        (processTween dt 0 td h).heap, (processTween dt 0 td h).events) := by
  have hdel : (processTween dt 0 td h).del = true := (processTween_del_iff dt 0 td h).mpr hc
  have hadds : (processTween dt 0 td h).adds = td.endTween := by
    rw [processTween_adds, if_pos hc]
  simp [STween.Update, updatePass, hr, hdel, hadds, eraseSwap]

theorem update_empty (li : Int) (h : Heap) (dt : ℚ) :
    STween.Update ⟨li, []⟩ dt h = (⟨li, []⟩, h, []) := by
  simp [STween.Update, updatePass]

theorem runUpdates_empty_vec (dts : List ℚ) (li : Int) (h : Heap) :
    runUpdates dts ⟨li, []⟩ h = (⟨li, []⟩, h, []) := by
  induction dts generalizing h with
  | nil => rfl
  | cons dt rest ih => simp [runUpdates, update_empty, ih]

theorem updatePass_vec_length (dt : ℚ) (l : List TweenData) (c : Nat) (h : Heap) :
    (updatePass dt l c h).vec.length = l.length := by
  induction l generalizing c h with
  | nil => rfl
  | cons td rest ih =>
    simp only [updatePass]
    split <;> simp [ih]

theorem updatePass_dels_bound (dt : ℚ) (l : List TweenData) (c : Nat) (h : Heap) :
    ∀ i ∈ (updatePass dt l c h).dels, c ≤ i ∧ i < c + l.length := by
  induction l generalizing c h with
  | nil => intro i hi; simp [updatePass] at hi
  | cons a rest ih =>
    intro i hi
    simp only [updatePass] at hi
    split at hi
    · simp only [List.mem_append] at hi
      rcases hi with hi | hi
      · split at hi <;> simp at hi
        simp only [List.length_cons]
        omega
      · have := ih (c + 1) _ i hi
        simp only [List.length_cons]
        omega
    · simp only [List.mem_cons] at hi
      rcases hi with hi | hi
      · simp only [List.length_cons]
        omega
      · have := ih (c + 1) h i hi
        simp only [List.length_cons]
        omega

theorem updatePass_dels_sorted (dt : ℚ) (l : List TweenData) (c : Nat) (h : Heap) :
    (updatePass dt l c h).dels.Pairwise (· < ·) := by
  induction l generalizing c h with
  | nil => simp [updatePass]
  | cons a rest ih =>
    simp only [updatePass]
    split
    · refine List.pairwise_append.mpr ⟨?_, ih (c + 1) _, ?_⟩
      · split <;> simp
      · intro x hx y hy
        split at hx <;> simp at hx
        have := updatePass_dels_bound dt rest (c + 1) _ y hy
        omega
    · refine List.pairwise_cons.mpr ⟨?_, ih (c + 1) h⟩
      intro y hy
      have := updatePass_dels_bound dt rest (c + 1) h y hy
      omega

theorem updatePass_vec_get (dt : ℚ) (l : List TweenData) (c : Nat) (h : Heap) (j : Nat) :
    (updatePass dt l c h).vec[j]? =
      (l[j]?).map fun td =>
        if td.core.fromReady then TweenData.mk (stepCore dt (c + j) td.core) td.endTween
        else td := by
  induction l generalizing c h j with
  | nil => simp [updatePass]
  | cons a rest ih =>
    cases j with
    | zero =>
      simp only [updatePass]
      split
      · next hr => simp [processTween_tween, hr]
      · next hr => simp only [Bool.not_eq_true] at hr; simp [hr]
    | succ j =>
      have harith : c + (j + 1) = (c + 1) + j := by omega
      simp only [updatePass]
      split <;> simp only [List.getElem?_cons_succ, harith, ih]

theorem updatePass_dels_iff (dt : ℚ) (l : List TweenData) (c : Nat) (h : Heap)
    (j : Nat) (td : TweenData) (htd : l[j]? = some td) :
    ((c + j) ∈ (updatePass dt l c h).dels ↔
      (td.core.fromReady = false ∨ td.core.duration ≤ td.core.timeCounter)) := by
  induction l generalizing c h j with
  | nil => simp at htd
  | cons a rest ih =>
    cases j with
    | zero =>
      have e : a = td := by simpa using htd
      simp only [updatePass, Nat.add_zero]
      split
      · next hr =>
        simp only [List.mem_append]
        constructor
        · intro hmem
          rcases hmem with hm | hm
          · split at hm <;> simp at hm
            next hdel =>
              right
              rw [← e]
              exact (processTween_del_iff dt c a h).mp hdel
          · have := updatePass_dels_bound dt rest (c + 1) _ c hm
            omega
        · intro hor
          rw [← e] at hor
          rcases hor with hor | hor
          · rw [hr] at hor; simp at hor
          · left
            have hdel : (processTween dt c a h).del = true :=
              (processTween_del_iff dt c a h).mpr hor
            simp [hdel]
      · next hr =>
        simp only [Bool.not_eq_true] at hr
        rw [← e]
        simp [hr]
    | succ j =>
      simp only [List.getElem?_cons_succ] at htd
      have harith : c + (j + 1) = (c + 1) + j := by omega
      rw [harith]
      simp only [updatePass]
      split
      · simp only [List.mem_append]
        constructor
        · intro hmem
          rcases hmem with hm | hm
          · split at hm <;> simp at hm
            omega
          · exact (ih (c + 1) _ j htd).mp hm
        · intro hor
          exact Or.inr ((ih (c + 1) _ j htd).mpr hor)
      · simp only [List.mem_cons]
        constructor
        · intro hmem
          rcases hmem with hm | hm
          · omega
          · exact (ih (c + 1) h j htd).mp hm
        · intro hor
          exact Or.inr ((ih (c + 1) h j htd).mpr hor)

theorem updatePass_adds_mem (dt : ℚ) (l : List TweenData) (c : Nat) (h : Heap) :
    ∀ x ∈ (updatePass dt l c h).adds, ∃ td, td ∈ l ∧ td.core.fromReady = true ∧
      td.core.duration ≤ td.core.timeCounter ∧ x ∈ td.endTween := by
  induction l generalizing c h with
  | nil => intro x hx; simp [updatePass] at hx
  | cons a rest ih =>
    intro x hx
    simp only [updatePass] at hx
    split at hx
    · next hr =>
      simp only [List.mem_append] at hx
      rcases hx with hx | hx
      · rw [processTween_adds] at hx
        split at hx
        · next hc => exact ⟨a, by simp, hr, hc, hx⟩
        · simp at hx
      · obtain ⟨td', h1, h2, h3, h4⟩ := ih (c + 1) _ x hx
        exact ⟨td', by simp [h1], h2, h3, h4⟩
    · obtain ⟨td', h1, h2, h3, h4⟩ := ih (c + 1) h x hx
      exact ⟨td', by simp [h1], h2, h3, h4⟩

theorem eraseSwap_length (v : List TweenData) (i : Nat) (hv : v ≠ []) :
    (eraseSwap v i).length = v.length - 1 := by
  obtain ⟨a, hlast⟩ : ∃ a, v.getLast? = some a := by
    cases hx : v.getLast? with
    | none => exact absurd (List.getLast?_eq_none_iff.mp hx) hv
    | some a => exact ⟨a, rfl⟩
  simp [eraseSwap, hlast]

theorem eraseSwap_get (v : List TweenData) (i j : Nat) (hj : j < v.length - 1) :
    (eraseSwap v i)[j]? = if j = i then v[v.length - 1]? else v[j]? := by
  have hv : v ≠ [] := by
    intro he
    subst he
    simp at hj
  obtain ⟨a, hlast⟩ : ∃ a, v.getLast? = some a := by
    cases hx : v.getLast? with
    | none => exact absurd (List.getLast?_eq_none_iff.mp hx) hv
    | some a => exact ⟨a, rfl⟩
  have hlast' : v[v.length - 1]? = some a := by
    rw [← List.getLast?_eq_getElem?, hlast]
  simp only [eraseSwap, hlast]
  rw [List.dropLast_eq_take, List.length_set]
  rw [List.getElem?_take_of_lt hj]
  by_cases hij : j = i
  · subst hij
    rw [if_pos rfl, List.getElem?_set_eq_of_lt a (by omega), hlast']
  · rw [if_neg hij, List.getElem?_set_ne (fun he => hij he.symm)]

theorem deleteFold_length (ds : List Nat) (v : List TweenData)
    (hb : ∀ i ∈ ds, i < v.length) (hd : ds.Pairwise (· > ·)) :
    (ds.foldl eraseSwap v).length + ds.length = v.length := by
  induction ds generalizing v with
  | nil => simp
  | cons i rest ih =>
    simp only [List.foldl_cons, List.length_cons]
    have hiv : i < v.length := hb i (by simp)
    have hv : v ≠ [] := List.ne_nil_of_length_pos (by omega)
    have hlen : (eraseSwap v i).length = v.length - 1 := eraseSwap_length v i hv
    obtain ⟨hlt, hpw⟩ := List.pairwise_cons.mp hd
    have hb' : ∀ k ∈ rest, k < (eraseSwap v i).length := by
      intro k hk
      have : i > k := hlt k hk
      omega
    have := ih (eraseSwap v i) hb' hpw
    omega

theorem deleteFold_mem (ds : List Nat) (v : List TweenData)
    (hb : ∀ i ∈ ds, i < v.length) (hd : ds.Pairwise (· > ·)) :
    ∀ x ∈ ds.foldl eraseSwap v, ∃ j, j < v.length ∧ j ∉ ds ∧ v[j]? = some x := by
  induction ds generalizing v with
  | nil =>
    intro x hx
    simp only [List.foldl_nil] at hx
    obtain ⟨j, hj⟩ := List.mem_iff_getElem?.mp hx
    exact ⟨j, (List.getElem?_eq_some.mp hj).1, by simp, hj⟩
  | cons i rest ih =>
    intro x hx
    simp only [List.foldl_cons] at hx
    have hiv : i < v.length := hb i (by simp)
    have hv : v ≠ [] := List.ne_nil_of_length_pos (by omega)
    have hlen : (eraseSwap v i).length = v.length - 1 := eraseSwap_length v i hv
    obtain ⟨hlt, hpw⟩ := List.pairwise_cons.mp hd
    have hb' : ∀ k ∈ rest, k < (eraseSwap v i).length := by
      intro k hk
      have : i > k := hlt k hk
      omega
    obtain ⟨j, hj1, hj2, hj3⟩ := ih (eraseSwap v i) hb' hpw x hx
    rw [hlen] at hj1
    rw [eraseSwap_get v i j hj1] at hj3
    by_cases hij : j = i
    · rw [if_pos hij] at hj3
      refine ⟨v.length - 1, by omega, ?_, hj3⟩
      simp only [List.mem_cons, not_or]
      constructor
      · omega
      · intro hmem
        have : i > v.length - 1 := hlt _ hmem
        omega
    · rw [if_neg hij] at hj3
      refine ⟨j, by omega, ?_, hj3⟩
      simp only [List.mem_cons, not_or]
      exact ⟨hij, hj2⟩

theorem assignIDs_length (li : Int) (l : List TweenData) :
    (assignIDs li l).length = l.length := by
  induction l generalizing li with
  | nil => rfl
  | cons t ts ih => simp [assignIDs, ih]

theorem assignIDs_get (li : Int) (l : List TweenData) (k : Nat) :
    (assignIDs li l)[k]? = (l[k]?).map fun td => td.setID (li + k) := by
  induction l generalizing li k with
  | nil => simp [assignIDs]
  | cons t ts ih =>
    cases k with
    | zero => simp [assignIDs]
    | succ k =>
      have harith : li + ((k : Int) + 1) = (li + 1) + k := by omega
      simp only [assignIDs, List.getElem?_cons_succ, ih]
      norm_num [harith]

theorem foldl_AddTween (adds : List TweenData) (li : Int) (v : List TweenData) :
    adds.foldl STween.AddTween ⟨li, v⟩ =
      ⟨li + adds.length, v ++ assignIDs li adds⟩ := by
  induction adds generalizing li v with
  | nil => simp [assignIDs]
  | cons t ts ih =>
    simp only [List.foldl_cons, STween.AddTween, assignIDs, ih]
    simp only [STween.mk.injEq, List.length_cons]
    refine ⟨by push_cast; ring, by simp⟩

theorem modifyNth_get {α : Type} (f : α → α) (n : Nat) (l : List α) :
    (modifyNth f n l)[n]? = (l[n]?).map f := by
  induction l generalizing n with
  | nil => simp [modifyNth]
  | cons a as ih =>
    cases n with
    | zero => simp [modifyNth]
    | succ n => simp [modifyNth, ih]

theorem modifyNth_length {α : Type} (f : α → α) (n : Nat) (l : List α) :
    (modifyNth f n l).length = l.length := by
  induction l generalizing n with
  | nil => cases n <;> rfl
  | cons a as ih =>
    cases n with
    | zero => simp [modifyNth]
    | succ n => simp [modifyNth, ih]

/-! ## Remaining claim theorems and their witnesses -/

/-- C10: the implicit class invariant — after construction and after every
public operation (`From` in both overloads, `AddTween`, `AddTweens`, the
builder's last-record mutation shared by `To`/`Time`/`OnFinish`/`OnStep`/
`Chain`/`Reversed`/`Easing`, `ReleaseTweens` and `Update`) the member
`m_lastTweenIndex` equals the number of stored records minus one (`-1`
when empty); consequently indexing `m_tweenVec[m_lastTweenIndex]` selects
exactly the most recently appended record (last conjunct). -/
theorem c10_theorem :
    lastIndexInv STween.init ∧
    (∀ st : STween, ∀ a : Nat, ∀ h : Heap, lastIndexInv st → lastIndexInv (st.FromPtr a h)) ∧
    (∀ st : STween, ∀ v : Val, lastIndexInv st → lastIndexInv (st.FromVal v)) ∧
    (∀ st : STween, ∀ td : TweenData, lastIndexInv st → lastIndexInv (st.AddTween td)) ∧
    (∀ st : STween, ∀ l : List TweenData, lastIndexInv st → lastIndexInv (st.AddTweens l)) ∧
    (∀ st : STween, ∀ f : TweenData → TweenData, lastIndexInv st → lastIndexInv (st.modifyLast f)) ∧
    (∀ st : STween, lastIndexInv st.ReleaseTweens) ∧
    (∀ st : STween, ∀ dt : ℚ, ∀ h : Heap, lastIndexInv st → lastIndexInv (st.Update dt h).1) ∧
    (∀ st : STween, lastIndexInv st →
      st.m_tweenVec[st.m_lastTweenIndex.toNat]? = st.m_tweenVec.getLast?) := by
  refine ⟨?_, ?_, ?_, ?_, ?_, ?_, ?_, ?_, ?_⟩
  · simp [lastIndexInv, STween.init]
  · intro st a h hinv
    simp only [lastIndexInv, STween.FromPtr, List.length_append, List.length_cons,
      List.length_nil] at *
    push_cast
    omega
  · intro st v hinv
    simp only [lastIndexInv, STween.FromVal, List.length_append, List.length_cons,
      List.length_nil] at *
    push_cast
    omega
  · intro st td hinv
    simp only [lastIndexInv, STween.AddTween, List.length_append, List.length_cons,
      List.length_nil] at *
    push_cast
    omega
  · intro st l hinv
    obtain ⟨li, v⟩ := st
    simp only [lastIndexInv] at hinv
    simp only [STween.AddTweens, lastIndexInv, foldl_AddTween, List.length_append,
      assignIDs_length]
    push_cast
    omega
  · intro st f hinv
    simp only [lastIndexInv, STween.modifyLast, modifyNth_length] at *
    exact hinv
  · intro st
    simp [lastIndexInv, STween.ReleaseTweens]
  · intro st dt h hinv
    obtain ⟨li, v⟩ := st
    simp only [lastIndexInv] at hinv
    have hball : ∀ i ∈ (updatePass dt v 0 h).dels.reverse, i < (updatePass dt v 0 h).vec.length := by
      intro i hi
      rw [List.mem_reverse] at hi
      have := updatePass_dels_bound dt v 0 h i hi
      rw [updatePass_vec_length]
      omega
    have hpw : (updatePass dt v 0 h).dels.reverse.Pairwise (· > ·) := by
      rw [List.pairwise_reverse]
      exact updatePass_dels_sorted dt v 0 h
    have hlen := deleteFold_length _ _ hball hpw
    rw [updatePass_vec_length, List.length_reverse] at hlen
    simp only [STween.Update, foldl_AddTween, lastIndexInv, List.length_append,
      assignIDs_length]
    push_cast
    omega
  · intro st hinv
    obtain ⟨li, v⟩ := st
    simp only [lastIndexInv] at hinv
    cases v with
    | nil =>
      simp at hinv
      subst hinv
      simp
    | cons a as =>
      have hlen : li.toNat = (a :: as).length - 1 := by
        simp only [List.length_cons] at hinv ⊢
        omega
      simp only [hlen]
      rw [List.getLast?_eq_getElem?]

/-- C4: every record that completes during an `Update` call (a record at
position `i` with `fromReady` set and `timeCounter >= duration`) is gone
from the collection `GetTweens` returns immediately afterwards: each
remaining record either fails the `TweenData::operator==` comparison with
the completed record (as it stood at removal time), or is one of the
records re-added through chaining. -/
theorem c4_theorem (st : STween) (dt : ℚ) (h : Heap) (i : Nat) (td0 : TweenData)
    (htd : st.m_tweenVec[i]? = some td0)
    (hr : td0.core.fromReady = true) (hc : td0.core.duration ≤ td0.core.timeCounter) :
    ∀ td' ∈ (st.Update dt h).1.m_tweenVec,
      tweenEq td' (TweenData.mk (stepCore dt i td0.core) td0.endTween) = false ∨
      td' ∈ assignIDs (st.m_lastTweenIndex - (updatePass dt st.m_tweenVec 0 h).dels.length)
        (updatePass dt st.m_tweenVec 0 h).adds := by
  obtain ⟨li, v⟩ := st
  intro td' hmem
  simp only [STween.Update, foldl_AddTween] at hmem
  simp only [List.mem_append] at hmem
  rcases hmem with hmem | hmem
  · left
    have hball : ∀ k ∈ (updatePass dt v 0 h).dels.reverse, k < (updatePass dt v 0 h).vec.length := by
      intro k hk
      rw [List.mem_reverse] at hk
      have := updatePass_dels_bound dt v 0 h k hk
      rw [updatePass_vec_length]
      omega
    have hpw : (updatePass dt v 0 h).dels.reverse.Pairwise (· > ·) := by
      rw [List.pairwise_reverse]
      exact updatePass_dels_sorted dt v 0 h
    obtain ⟨j, hj1, hj2, hj3⟩ := deleteFold_mem _ _ hball hpw td' hmem
    rw [List.mem_reverse] at hj2
    rw [updatePass_vec_length] at hj1
    obtain ⟨tdj, htdj⟩ : ∃ tdj, v[j]? = some tdj := by
      rw [List.getElem?_eq_getElem hj1]
      exact ⟨_, rfl⟩
    have hchar := updatePass_vec_get dt v 0 h j
    rw [hj3, htdj, Nat.zero_add] at hchar
    have hiff := updatePass_dels_iff dt v 0 h j tdj htdj
    rw [Nat.zero_add] at hiff
    have hjprops : tdj.core.fromReady = true ∧ ¬ tdj.core.duration ≤ tdj.core.timeCounter := by
      by_contra hcon
      push_neg at hcon
      rcases hx : tdj.core.fromReady with hfalse | htrue
      · exact hj2 (hiff.mpr (Or.inl hx))
      · exact hj2 (hiff.mpr (Or.inr (hcon hx)))
    have hidel : i ∈ (updatePass dt v 0 h).dels := by
      have := updatePass_dels_iff dt v 0 h i td0 htd
      rw [Nat.zero_add] at this
      exact this.mpr (Or.inr hc)
    have hji : j ≠ i := fun he => hj2 (he ▸ hidel)
    have htd' : td' = TweenData.mk (stepCore dt j tdj.core) tdj.endTween := by
      simp only [Option.map_some', Option.some.injEq] at hchar
      rw [hchar, if_pos hjprops.1]
    rw [htd']
    simp only [tweenEq, TweenData.core, stepCore]
    simp [hji]
  · right
    exact hmem

/-- C8, amended: when records complete during an `Update` call, the
records of their chain lists are appended to the registry only after the
evaluation and compaction passes (the post-`Update` vector is the
compacted vector followed by the re-assigned chain records); each appended
record receives `tweenID` values assigned sequentially from the
post-compaction `m_lastTweenIndex`, keeping every other field — in
particular `fromReady`, so a record captured active is active from this
tick; and every appended record stems from the chain list of some record
that completed this pass.  The claim's further assertion that the freshly
assigned identifier is distinct from every identifier already in the
registry is refuted by `c8_counterexample`. -/
theorem c8_amended (st : STween) (dt : ℚ) (h : Heap) :
    (st.Update dt h).1.m_tweenVec =
      ((updatePass dt st.m_tweenVec 0 h).dels.reverse.foldl eraseSwap
        (updatePass dt st.m_tweenVec 0 h).vec) ++
      assignIDs (st.m_lastTweenIndex - (updatePass dt st.m_tweenVec 0 h).dels.length)
        (updatePass dt st.m_tweenVec 0 h).adds ∧
    (st.Update dt h).1.m_lastTweenIndex =
      st.m_lastTweenIndex - (updatePass dt st.m_tweenVec 0 h).dels.length +
        (updatePass dt st.m_tweenVec 0 h).adds.length ∧
    (∀ k : Nat,
      (assignIDs (st.m_lastTweenIndex - (updatePass dt st.m_tweenVec 0 h).dels.length)
        (updatePass dt st.m_tweenVec 0 h).adds)[k]? =
      ((updatePass dt st.m_tweenVec 0 h).adds[k]?).map fun td =>
        td.setID (st.m_lastTweenIndex - (updatePass dt st.m_tweenVec 0 h).dels.length + k)) ∧
    (∀ td : TweenData, ∀ n : Int, (td.setID n).core.fromReady = td.core.fromReady ∧
      (td.setID n).core.tweenID = n ∧ (td.setID n).endTween = td.endTween) ∧
    (∀ x ∈ (updatePass dt st.m_tweenVec 0 h).adds, ∃ td, td ∈ st.m_tweenVec ∧
      td.core.fromReady = true ∧ td.core.duration ≤ td.core.timeCounter ∧ x ∈ td.endTween) := by
  obtain ⟨li, v⟩ := st
  refine ⟨?_, ?_, ?_, ?_, ?_⟩
  · simp [STween.Update, foldl_AddTween]
  · simp [STween.Update, foldl_AddTween]
  · intro k
    exact assignIDs_get _ _ k
  · intro td n
    obtain ⟨c, ts⟩ := td
    simp [TweenData.setID, TweenData.core, TweenData.endTween]
  · exact updatePass_adds_mem dt v 0 h

theorem processTween_rev (dt : ℚ) (c : Nat) (td : TweenData) (h : Heap)
    (hrev : td.core.reversed = true) :
    processTween dt c (revCounterpart td) h =
      { processTween dt c td h with
        tween := revCounterpart (processTween dt c td h).tween } := by
  obtain ⟨co, ts⟩ := td
  obtain ⟨id0, fr, bp, rv, iv, ic, fv, du, ea, tc, fc, sc⟩ := co
  simp only [TweenData.core] at hrev
  subst hrev
  simp only [processTween, revCounterpart, TweenData.core, TweenData.endTween,
    tweenValue, stepCore, snapValue]
  split <;> simp [OneResult.mk.injEq]

theorem revCounterpart_core (td : TweenData) :
    (revCounterpart td).core =
      { td.core with
        initialCpy := td.core.finalValue
        finalValue := td.core.initialCpy
        reversed := false } := by
  obtain ⟨c, ts⟩ := td
  rfl

theorem revCounterpart_endTween (td : TweenData) :
    (revCounterpart td).endTween = td.endTween := by
  obtain ⟨c, ts⟩ := td
  rfl

theorem stepCore_rev_comm (dt : ℚ) (c : Nat) (td : TweenData) :
    TweenData.mk (stepCore dt c (revCounterpart td).core) (revCounterpart td).endTween =
      revCounterpart (TweenData.mk (stepCore dt c td.core) td.endTween) := by
  obtain ⟨co, ts⟩ := td
  obtain ⟨id0, fr, bp, rv, iv, ic, fv, du, ea, tc, fc, sc⟩ := co
  simp [revCounterpart, stepCore, TweenData.core, TweenData.endTween]

/-- C5: a record configured with `reversed = true`, start `S`, end `E`
produces exactly the same outputs (heap contents and the full event
sequence of pointer writes, step-callback values and finish invocations)
over any sequence of `Update` calls as its non-reversed counterpart
configured with start `E`, end `S`. -/
theorem c5_theorem (td : TweenData) (hrev : td.core.reversed = true)
    (dts : List ℚ) (li : Int) (h : Heap) :
    (runUpdates dts ⟨li, [revCounterpart td]⟩ h).2 =
      (runUpdates dts ⟨li, [td]⟩ h).2 := by
  induction dts generalizing td li h with
  | nil => rfl
  | cons dt rest ih =>
    simp only [runUpdates]
    cases hfr : td.core.fromReady with
    | false =>
      rw [update_single_notReady td li h dt hfr,
        update_single_notReady (revCounterpart td) li h dt
          (by rw [revCounterpart_core]; exact hfr)]
    | true =>
      by_cases hc : td.core.duration ≤ td.core.timeCounter
      · rw [update_single_complete td li h dt hfr hc,
          update_single_complete (revCounterpart td) li h dt
            (by rw [revCounterpart_core]; exact hfr)
            (by rw [revCounterpart_core]; exact hc),
          processTween_rev dt 0 td h hrev, revCounterpart_endTween]
      · rw [update_single_active td li h dt hfr hc,
          update_single_active (revCounterpart td) li h dt
            (by rw [revCounterpart_core]; exact hfr)
            (by rw [revCounterpart_core]; exact hc),
          processTween_rev dt 0 td h hrev, stepCore_rev_comm]
        have hrev' : (TweenData.mk (stepCore dt 0 td.core) td.endTween).core.reversed = true := by
          simp only [TweenData.core, stepCore]
          exact hrev
        simp only []
        rw [ih (TweenData.mk (stepCore dt 0 td.core) td.endTween) hrev' li
          (processTween dt 0 td h).heap]

theorem processTween_complete_heap (dt : ℚ) (c : Nat) (td : TweenData) (h : Heap)
    (a : Nat) (hb : td.core.byPointer = true) (hp : td.core.initialValue = some a)
    (hc : td.core.duration ≤ td.core.timeCounter) :
    (processTween dt c td h).heap a = snapValue td.core := by
  simp [processTween, hb, hp, hc, writePtr, heapWrite]

theorem c1_aux (dts : List ℚ) (d : ℚ) (td : TweenData) (li : Int) (h : Heap) (a : Nat)
    (hr : td.core.fromReady = true) (hb : td.core.byPointer = true)
    (hp : td.core.initialValue = some a) (hch : td.endTween = [])
    (hsum : td.core.duration ≤ td.core.timeCounter + dts.sum) :
    (runUpdates (dts ++ [d]) ⟨li, [td]⟩ h).2.1 a = snapValue td.core := by
  induction dts generalizing td li h with
  | nil =>
    have hc : td.core.duration ≤ td.core.timeCounter := by simpa using hsum
    simp only [List.nil_append, runUpdates]
    rw [update_single_complete td li h d hr hc, hch]
    simp only [List.foldl_nil]
    exact processTween_complete_heap d 0 td h a hb hp hc
  | cons dt rest ihx =>
    obtain ⟨co, ts⟩ := td
    simp only [TweenData.core] at hr hb hp hsum
    simp only [TweenData.endTween] at hch
    subst hch
    by_cases hc : co.duration ≤ co.timeCounter
    · simp only [List.cons_append, runUpdates]
      rw [update_single_complete (TweenData.mk co []) li h dt hr hc]
      simp only [TweenData.endTween, List.foldl_nil]
      rw [runUpdates_empty_vec]
      exact processTween_complete_heap dt 0 (TweenData.mk co []) h a hb hp hc
    · simp only [List.cons_append, runUpdates]
      rw [update_single_active (TweenData.mk co []) li h dt hr hc]
      have h1 : (TweenData.mk (stepCore dt 0 co) []).core.fromReady = true := by
        simp only [TweenData.core, stepCore, if_neg hc]
        exact hr
      have h2 : (TweenData.mk (stepCore dt 0 co) []).core.byPointer = true := hb
      have h3 : (TweenData.mk (stepCore dt 0 co) []).core.initialValue = some a := hp
      have h4 : (TweenData.mk (stepCore dt 0 co) []).endTween = ([] : List TweenData) := rfl
      have h5 : (TweenData.mk (stepCore dt 0 co) []).core.duration ≤
          (TweenData.mk (stepCore dt 0 co) []).core.timeCounter + rest.sum := by
        simp only [TweenData.core, stepCore]
        simp only [List.sum_cons] at hsum
        linarith
      have hsnap : snapValue (TweenData.mk (stepCore dt 0 co) []).core = snapValue co := by
        simp [snapValue, TweenData.core, stepCore]
      have hgoal := ihx (TweenData.mk (stepCore dt 0 co) []) li
        (processTween dt 0 (TweenData.mk co []) h).heap h1 h2 h3 h4 h5
      rw [hsnap] at hgoal
      exact hgoal

/-- C1, amended: completion is tested against the pre-increment elapsed
time, so for a by-pointer tween started at `elapsed = 0` with
`duration > 0`, when non-negative `deltaTime` values sum exactly to the
duration the exactly-snapped boundary value (`end`, or `start` when
reversed) is written on the next `Update` call after the one where the
cumulative sum first reaches the duration — not on that call itself
(refuted by `c1_counterexample`). -/
theorem c1_amended (dts : List ℚ) (d : ℚ) (td : TweenData) (li : Int) (h : Heap) (a : Nat)
    (hr : td.core.fromReady = true) (hb : td.core.byPointer = true)
    (hp : td.core.initialValue = some a) (hch : td.endTween = [])
    (ht0 : td.core.timeCounter = 0) (hdur : 0 < td.core.duration)
    (hnn : ∀ x ∈ dts, 0 ≤ x) (hsum : dts.sum = td.core.duration) (hd : 0 ≤ d) :
    (runUpdates (dts ++ [d]) ⟨li, [td]⟩ h).2.1 a = snapValue td.core := by
  refine c1_aux dts d td li h a hr hb hp hch ?_
  rw [ht0, hsum]
  simp

/-- C3, amended: on the `Update` call that detects completion (pre-tick
`elapsed >= duration`) of a by-pointer record with a step callback, the
event sequence is: the eased per-step value is written through the pointer
and passed to `onStep`, then the snapped boundary value is written through
the pointer only (followed by `onFinish` when set) — the snapped value is
not delivered to `onStep`, and the final heap content is exactly the
boundary value. -/
theorem c3_amended (td : TweenData) (li : Int) (h : Heap) (dt : ℚ) (a : Nat)
    (hr : td.core.fromReady = true) (hb : td.core.byPointer = true)
    (hp : td.core.initialValue = some a) (hs : td.core.hasStepCallback = true)
    (hc : td.core.duration ≤ td.core.timeCounter) :
    (STween.Update ⟨li, [td]⟩ dt h).2.2 =
      [Event.write a (tweenValue td.core), Event.step (tweenValue td.core),
        Event.write a (snapValue td.core)] ++
      (if td.core.hasFinishCallback then [Event.finish] else []) ∧
    (STween.Update ⟨li, [td]⟩ dt h).2.1 a = snapValue td.core := by
  rw [update_single_complete td li h dt hr hc]
  constructor
  · simp [processTween, hb, hp, hs, hc, writePtr]
  · exact processTween_complete_heap dt 0 td h a hb hp hc

/-- C6: `Chain(otherRegistry)` stores into the last-appended record's
chain list a snapshot copy of all records `otherRegistry` holds at the
moment of the call (`GetTweens` returns the vector by value); for every
sequence of mutations applied to `otherRegistry` afterwards the captured
chain list still equals that at-call snapshot, while the mutations do
change `otherRegistry` itself (a trailing `reset` leaves it empty). -/
theorem c6_theorem (A B : STween) (h : Heap)
    (hv : A.m_lastTweenIndex.toNat < A.m_tweenVec.length) :
    (((A.Chain B).m_tweenVec[A.m_lastTweenIndex.toNat]?).map TweenData.endTween) =
      some B.GetTweens ∧
    (∀ ms : List RegMutation,
      (A.Chain B, (runMutations ms B h).1).1.m_tweenVec[A.m_lastTweenIndex.toNat]?.map
        TweenData.endTween = some B.GetTweens) ∧
    (∀ ms : List RegMutation,
      (runMutations (ms ++ [RegMutation.release]) B h).1.GetTweens = []) := by
  have hcap : (((A.Chain B).m_tweenVec[A.m_lastTweenIndex.toNat]?).map TweenData.endTween) =
      some B.GetTweens := by
    obtain ⟨tdA, htdA⟩ : ∃ tdA, A.m_tweenVec[A.m_lastTweenIndex.toNat]? = some tdA := by
      rw [List.getElem?_eq_getElem hv]
      exact ⟨_, rfl⟩
    simp only [STween.Chain, STween.modifyLast, modifyNth_get, htdA, Option.map_some',
      TweenData.endTween, STween.GetTweens]
  refine ⟨hcap, fun ms => hcap, fun ms => ?_⟩
  simp only [runMutations, List.foldl_append, List.foldl_cons, List.foldl_nil]
  simp [applyMutation, STween.ReleaseTweens, STween.GetTweens]

/-- C1 witness: the amended theorem applied to a fresh record with
duration 1 and deltas `[1/2, 1/2]` followed by one further update. -/
theorem c1_amended_witness :
    (List.sum [(1:ℚ)/2, 1/2] = tdC1.core.duration ∧ (0:ℚ) < tdC1.core.duration) ∧
    (runUpdates ([1/2, 1/2] ++ [1/4]) ⟨0, [tdC1]⟩ heap0).2.1 0 = snapValue tdC1.core := by
  have hsum : List.sum [(1:ℚ)/2, 1/2] = tdC1.core.duration := by
    norm_num [tdC1, TweenData.core]
  have hdur : (0:ℚ) < tdC1.core.duration := by norm_num [tdC1, TweenData.core]
  refine ⟨⟨hsum, hdur⟩,
    c1_amended [1/2, 1/2] (1/4) tdC1 0 heap0 0 rfl rfl rfl rfl rfl hdur ?_ hsum (by norm_num)⟩
  intro x hx
  simp only [List.mem_cons, List.mem_singleton, List.not_mem_nil, or_false] at hx
  rcases hx with hx | hx <;> rw [hx] <;> norm_num

/-- C3 witness: the amended theorem applied to an overshot by-pointer
record with a step callback. -/
theorem c3_amended_witness :
    (tdOver.core.duration ≤ tdOver.core.timeCounter ∧ tdOver.core.hasStepCallback = true) ∧
    ((STween.Update ⟨0, [tdOver]⟩ 1 heap0).2.2 =
      [Event.write 0 (tweenValue tdOver.core), Event.step (tweenValue tdOver.core),
        Event.write 0 (snapValue tdOver.core)] ++
      (if tdOver.core.hasFinishCallback then [Event.finish] else []) ∧
    (STween.Update ⟨0, [tdOver]⟩ 1 heap0).2.1 0 = snapValue tdOver.core) := by
  have hc : tdOver.core.duration ≤ tdOver.core.timeCounter := by
    norm_num [tdOver, TweenData.core]
  exact ⟨⟨hc, rfl⟩, c3_amended tdOver 0 heap0 1 0 rfl rfl rfl rfl hc⟩

/-- C4 witness: the theorem applied to the two-record registry whose
second record completes. -/
theorem c4_witness :
    (stC8.m_tweenVec[1]? = some tdDone ∧ tdDone.core.fromReady = true ∧
      tdDone.core.duration ≤ tdDone.core.timeCounter) ∧
    (∀ td' ∈ (stC8.Update 0 heap0).1.m_tweenVec,
      tweenEq td' (TweenData.mk (stepCore 0 1 tdDone.core) tdDone.endTween) = false ∨
      td' ∈ assignIDs (stC8.m_lastTweenIndex - (updatePass 0 stC8.m_tweenVec 0 heap0).dels.length)
        (updatePass 0 stC8.m_tweenVec 0 heap0).adds) := by
  have hc : tdDone.core.duration ≤ tdDone.core.timeCounter := le_refl _
  exact ⟨⟨rfl, rfl, hc⟩, c4_theorem stC8 0 heap0 1 tdDone rfl rfl hc⟩

/-- C5 witness: the theorem applied to a concrete reversed record over
two updates of one half second. -/
theorem c5_witness :
    tdRev.core.reversed = true ∧
    (runUpdates [1/2, 1/2] ⟨0, [revCounterpart tdRev]⟩ heap0).2 =
      (runUpdates [1/2, 1/2] ⟨0, [tdRev]⟩ heap0).2 :=
  ⟨rfl, c5_theorem tdRev rfl [1/2, 1/2] 0 heap0⟩

/-- C6 witness: the theorem applied to two one-record registries, with a
release mutating the chained-from registry. -/
theorem c6_witness :
    ((STween.init.FromVal 0).m_lastTweenIndex.toNat <
      (STween.init.FromVal 0).m_tweenVec.length) ∧
    ((((STween.init.FromVal 0).Chain (STween.init.FromVal 7)).m_tweenVec[
        (STween.init.FromVal 0).m_lastTweenIndex.toNat]?).map TweenData.endTween) =
      some (STween.init.FromVal 7).GetTweens ∧
    (runMutations ([] ++ [RegMutation.release]) (STween.init.FromVal 7) heap0).1.GetTweens = [] := by
  have hv : (STween.init.FromVal 0).m_lastTweenIndex.toNat <
      (STween.init.FromVal 0).m_tweenVec.length := by
    norm_num [STween.FromVal, STween.init]
  exact ⟨hv, (c6_theorem (STween.init.FromVal 0) (STween.init.FromVal 7) heap0 hv).1,
    (c6_theorem (STween.init.FromVal 0) (STween.init.FromVal 7) heap0 hv).2.2 []⟩

/-- C8 witness: the chain-origin conjunct of the amended theorem applied
to the concrete completing record of `stC8`. -/
theorem c8_amended_witness :
    tdChained ∈ (updatePass 0 stC8.m_tweenVec 0 heap0).adds ∧
    (∃ td, td ∈ stC8.m_tweenVec ∧ td.core.fromReady = true ∧
      td.core.duration ≤ td.core.timeCounter ∧ tdChained ∈ td.endTween) := by
  have hmem : tdChained ∈ (updatePass 0 stC8.m_tweenVec 0 heap0).adds := by
    norm_num [updatePass, processTween, tweenValue, evalEasing, STween.Linear, stepCore,
      snapValue, writePtr, heapWrite, stC8, tdLong, tdDone, tdChained,
      TweenData.core, TweenData.endTween, heap0]
  exact ⟨hmem, (c8_amended stC8 0 heap0).2.2.2.2 tdChained hmem⟩

/-- C10 witness: the invariant holds for the fresh registry, after a
by-value `From`, and after an `Update`. -/
theorem c10_witness :
    lastIndexInv STween.init ∧ lastIndexInv (STween.init.FromVal 0) ∧
    lastIndexInv ((STween.init.FromVal 0).Update 1 heap0).1 := by
  have h1 := c10_theorem.1
  have h2 := c10_theorem.2.2.1 STween.init 0 h1
  have h3 := c10_theorem.2.2.2.2.2.2.2.1 (STween.init.FromVal 0) 1 heap0 h2
  exact ⟨h1, h2, h3⟩
